import Mathlib

/-!
Verification of the `macro-toolset` text-encoding library against its
natural-language specification.

The Rust code is shallowly embedded:

* byte buffers (`Vec<u8>`, the `String` backing store) become `List Nat`,
  each entry one byte value;
* buffer-mutating methods become functions from the old buffer contents to
  the new buffer contents;
* machine integers become `Nat` (or `Int` for signed values), with an
  explicit `% 2 ^ 64` wherever wrap-around matters;
* fallible operations (a Rust `panic` from arithmetic underflow) become
  `Option`-valued functions.

Vendored third-party dependencies (the `base64` engine, `const_hex`
formatter) are not part of this repository; where a claim touches them
they are either kept abstract (a function parameter) or modelled from the
specification's description of the depended-upon capability, as noted at
the definition.
-/

/-- Bytes of an ASCII string literal; used only to state concrete examples
in readable form. -/
def asciiBytes (s : String) : List Nat := s.data.map Char.toNat

namespace NumStr

/-- `HEX_CHARS_LOWER` from `src/string/number.rs` (identical table in
`src/string.rs`): the bytes `"0123456789abcdef"`. -/
def HEX_CHARS_LOWER : List Nat :=
  [48, 49, 50, 51, 52, 53, 54, 55, 56, 57, 97, 98, 99, 100, 101, 102]

/-- `HEX_CHARS_UPPER` from `src/string/number.rs`: the bytes
`"0123456789ABCDEF"`. -/
def HEX_CHARS_UPPER : List Nat :=
  [48, 49, 50, 51, 52, 53, 54, 55, 56, 57, 65, 66, 67, 68, 69, 70]

/-- `NumStr::charset()`: uppercase or lowercase digit table. -/
def charset (U : Bool) : List Nat :=
  if U then HEX_CHARS_UPPER else HEX_CHARS_LOWER

/-- `charset[d]`: the byte for digit value `d` (meaningful for `d < 16`). -/
def digitByte (U : Bool) (d : Nat) : Nat := (charset U).getD d 0

/-- The `R > 0` fill loop of the unsigned `NumStr::encode`
(`src/string/number.rs` lines 283–295): starting from an `R`-slot window
pre-filled with `'0'`, write base-`B` digits least-significant-first from
the low end, stopping when the value reaches zero or the window is full.
The result is the window contents, least-significant digit first. -/
def windowLSF (B : Nat) (U : Bool) (v : Nat) : Nat → List Nat
  | 0 => []
  | s + 1 =>
    digitByte U (v % B) ::
      (if v / B = 0 then List.replicate s 48 else windowLSF B U (v / B) s)

/-- The `R = 0` digit loop of the unsigned `NumStr::encode`
(`src/string/number.rs` lines 308–312): all base-`B` digits of `v`,
least-significant first (empty for `v = 0`; the source only enters the
loop with `v ≠ 0`).  The `B ≤ 1` guard makes the function total; the
source's contract (`debug_assert`) is `2 ≤ B ≤ 16`. -/
def digitsLSF (B : Nat) (U : Bool) (v : Nat) : List Nat :=
  if h : v = 0 ∨ B ≤ 1 then []
  else digitByte U (v % B) :: digitsLSF B U (v / B)
termination_by v
decreasing_by
  push_neg at h
  exact Nat.div_lt_self (Nat.pos_of_ne_zero h.1) (by omega)

/-- Unsigned `NumStr::<B, U, R, M>::encode` from `src/string/number.rs`
lines 270–323: appends the rendering of `v` to the buffer `string`.
With `R > 0` the pre-filled window is written least-significant-first and
then the whole window is reversed (value `0` returns the pre-filled
window unchanged).  With `R = 0` the natural digits are pushed
least-significant-first, padded with `'0'` up to the minimum length `M`,
and the pushed region is reversed. -/
def encodeUnsigned (B : Nat) (U : Bool) (R M : Nat) (v : Nat)
    (string : List Nat) : List Nat :=
  if 0 < R then
    if v = 0 then string ++ List.replicate R 48
    else string ++ (windowLSF B U v R).reverse
  else
    if v = 0 then string ++ [48]
    else
      let ds := digitsLSF B U v
      string ++ (ds ++ List.replicate (M - ds.length) 48).reverse

/-- Signed `NumStr::<B, U, R, M>::encode` from `src/string/number.rs`
lines 345–356: push `'-'` (byte 45) when negative, then encode the
absolute value through `NumStr::<B, U, 0, 0>` — the configured `R` and
`M` are replaced by `0` in the delegated call. -/
def encodeSigned (B : Nat) (U : Bool) (R M : Nat) (v : Int)
    (string : List Nat) : List Nat :=
  encodeUnsigned B U 0 0 v.natAbs (if v < 0 then string ++ [45] else string)

/-- `Vec::resize(n, fill)` on a byte vector: truncate to `n` or pad with
`fill` up to length `n`. -/
def resizeVec (l : List Nat) (n : Nat) (fill : Nat) : List Nat :=
  l.take n ++ List.replicate (n - l.length) fill

/-- The superseded `NumStr::<B, U, R, M>::encode` of `src/string.rs`
lines 963–988 (`usize` payload): value `0` short-circuits to `"0"`;
otherwise the least-significant-first digit vector is resized to `R`
(when `R ≠ 0`), else padded to the minimum length `M`, then reversed. -/
def encodeV1 (B : Nat) (U : Bool) (R M : Nat) (v : Nat) : List Nat :=
  if v = 0 then [48]
  else
    let ds := digitsLSF B U v
    (if R ≠ 0 then resizeVec ds R 48
     else if M ≠ 0 ∧ ds.length < M then resizeVec ds M 48
     else ds).reverse

/-- Specification-level description of the `R`-slot window: the `R`
least-significant base-`B` digits of `v`, most-significant first (high
positions that exceed the natural digit count read as `0`). -/
def lsWindowBytes (B : Nat) (U : Bool) (R v : Nat) : List Nat :=
  (List.range R).reverse.map fun i => digitByte U (v / B ^ i % B)

/-- Specification-level description of the default rendering: the
base-`B` digits of `v`, most significant first, `"0"` for zero. -/
def msfBytes (B : Nat) (U : Bool) (v : Nat) : List Nat :=
  if v = 0 then [48] else (digitsLSF B U v).reverse

end NumStr

namespace StrV2

/-- The `remove_separator_tailing!` macro from `src/string_v2.rs` lines
91–98: truncate `separator.len()` bytes from the buffer end whenever the
buffer is at least that long (`checked_sub`), without inspecting the
removed bytes. -/
def removeSeparatorTailing (sep buf : List Nat) : List Nat :=
  if sep.length ≤ buf.length then buf.take (buf.length - sep.length) else buf

/-- A `StringT` implementer (`src/string_v2.rs` lines 178–198): its two
`Vec<u8>`-append methods in state-passing style (`encodeToBufWithSeparator`
takes the separator first, then the buffer). -/
structure StringTImpl where
  encodeToBuf : List Nat → List Nat
  encodeToBufWithSeparator : List Nat → List Nat → List Nat

/-- `StringT for &str` / `String` (`src/string_v2/general/string.rs` lines
40–64): append the bytes; the with-separator form appends the bytes, then
the separator. -/
def strT (s : List Nat) : StringTImpl where
  encodeToBuf buf := buf ++ s
  encodeToBufWithSeparator sep buf := buf ++ s ++ sep

/-- `StringT for ()` (`src/string_v2/general.rs` lines 14–28): both
methods have an empty body. -/
def unitT : StringTImpl where
  encodeToBuf buf := buf
  encodeToBufWithSeparator _ buf := buf

/-- `StringT for (T1, T2, T3)` (`src/string_v2/general/tuple.rs` lines
15–53, instantiated at arity 3): plain form encodes every element in
order; the with-separator form runs every element's with-separator
encoding, appends the separator once more after each element, and finally
removes one trailing separator occurrence. -/
def tuple3T (a b c : StringTImpl) : StringTImpl where
  encodeToBuf buf := c.encodeToBuf (b.encodeToBuf (a.encodeToBuf buf))
  encodeToBufWithSeparator sep buf :=
    removeSeparatorTailing sep
      (c.encodeToBufWithSeparator sep
        (b.encodeToBufWithSeparator sep
          (a.encodeToBufWithSeparator sep buf ++ sep) ++ sep) ++ sep)

/-- `IterWrapper` (and through it `Vec<T>`, arrays and slices,
`src/string_v2/general/iterator.rs` lines 45–79): encode every item; the
with-separator form delegates to every item's with-separator encoding and
adds nothing itself. -/
def iterT (items : List StringTImpl) : StringTImpl where
  encodeToBuf buf := items.foldl (fun b it => it.encodeToBuf b) buf
  encodeToBufWithSeparator sep buf :=
    items.foldl (fun b it => it.encodeToBufWithSeparator sep b) buf

/-- `PushAnyT::push_any` for `String` (`src/string_v2.rs` lines 114–121). -/
def pushAny (v : StringTImpl) (buf : List Nat) : List Nat := v.encodeToBuf buf

/-- `PushAnyT::push_any_with_separator` for `String` (`src/string_v2.rs`
lines 123–135): run the value's with-separator encoding, then remove one
trailing separator occurrence unconditionally. -/
def pushAnyWithSeparator (v : StringTImpl) (sep buf : List Nat) : List Nat :=
  removeSeparatorTailing sep (v.encodeToBufWithSeparator sep buf)

/-- `StringExtT::to_string_ext` (`src/string_v2.rs` lines 223–230). -/
def toStringExt (v : StringTImpl) : List Nat := pushAny v []

/-- `StringExtT::to_string_ext_with_separator` (`src/string_v2.rs` lines
233–242), also the expansion of `str_concat_v2!(sep = ...)`. -/
def toStringExtWithSeparator (v : StringTImpl) (sep : List Nat) : List Nat :=
  pushAnyWithSeparator v sep []

end StrV2

namespace StrV1

/-- `SeparatorT for &str::remove_end` (`src/string.rs` lines 821–826):
truncate the buffer to `len - separator.len()` without checking the
removed bytes; `none` models the arithmetic-underflow panic when the
buffer is shorter than the separator. -/
def removeEnd (sep buf : List Nat) : Option (List Nat) :=
  if sep.length ≤ buf.length then some (buf.take (buf.length - sep.length))
  else none

/-- v1 `&str::push_to_string` (`src/string.rs` lines 464–469). -/
def strPush (s buf : List Nat) : List Nat := buf ++ s

/-- v1 default `push_to_string_with_separator` (`src/string.rs` lines
391–398) for an `&str` value and `&str` separator: push the value, then
the separator. -/
def strPushWithSep (s sep buf : List Nat) : List Nat := buf ++ s ++ sep

/-- `Vec<T>::push_to_string_with_separator` (`src/string.rs` lines
637–649) specialised to string elements: push every element with its
trailing separator; when non-empty, remove one separator occurrence from
the end and push the separator back (leaving exactly one trailing
separator). -/
def vecStrPushWithSep (items : List (List Nat)) (sep buf : List Nat) :
    Option (List Nat) :=
  let buf2 := items.foldl (fun b s => strPushWithSep s sep b) buf
  if items.isEmpty then some buf2
  else (removeEnd sep buf2).map (fun b => b ++ sep)

/-- `StringExt::into_string_remove_tail` (`src/string.rs` lines 331–339)
with an `&str` separator: remove one separator occurrence from the end,
whether or not the trailing bytes are an occurrence of the separator. -/
def intoStringRemoveTail (sep buf : List Nat) : Option (List Nat) :=
  removeEnd sep buf

/-- The `str_concat!(sep = ...)` form (`src/string.rs` lines 81–89) for a
list of string values: push each with a trailing separator onto a fresh
buffer, then remove one separator occurrence from the end. -/
def strConcatSep (xs : List (List Nat)) (sep : List Nat) :
    Option (List Nat) :=
  intoStringRemoveTail sep (xs.foldl (fun b s => strPushWithSep s sep b) [])

/-- v1 `StringExtT for ()::push_to_string` (`src/string.rs` lines
423–436): empty body. -/
def unitPush (buf : List Nat) : List Nat := buf

/-- v1 `StringExtT for ()::push_to_string_with_separator` (`src/string.rs`
lines 423–436): empty body — not even the separator is pushed. -/
def unitPushWithSep (_sep buf : List Nat) : List Nat := buf

end StrV1

namespace Url

/-- `to_hex_digit` from `src/string/urlencoding.rs` lines 84–90: `'0' + d`
for `d ≤ 9`, else `'A' - 10 + d` (uppercase). -/
def toHexDigit (d : Nat) : Nat := if d ≤ 9 then 48 + d else 55 + d

/-- `from_hex_digit` from `src/string/urlencoding.rs` lines 177–185:
accepts `'0'..'9'`, `'A'..'F'` and `'a'..'f'`. -/
def fromHexDigit (d : Nat) : Option Nat :=
  if 48 ≤ d ∧ d ≤ 57 then some (d - 48)
  else if 65 ≤ d ∧ d ≤ 70 then some (d - 65 + 10)
  else if 97 ≤ d ∧ d ≤ 102 then some (d - 97 + 10)
  else none

/-- The byte class left unescaped by `Encode::encode_to_buf`
(`src/string/urlencoding.rs` line 44): ASCII digits, letters, and
`'-' '.' '_' '~'`. -/
def isUnreserved (b : Nat) : Bool :=
  decide ((48 ≤ b ∧ b ≤ 57) ∨ (65 ≤ b ∧ b ≤ 90) ∨ (97 ≤ b ∧ b ≤ 122)
    ∨ b = 45 ∨ b = 46 ∨ b = 95 ∨ b = 126)

/-- Per-byte step of `Encode::encode_to_buf` (`src/string/urlencoding.rs`
lines 43–50): an unreserved byte is pushed unchanged, any other byte as
`'%'` (37) followed by the uppercase hex digits of its high and low
nibble. -/
def encByte (b : Nat) : List Nat :=
  if isUnreserved b then [b]
  else [37, toHexDigit (b >>> 4), toHexDigit (b &&& 15)]

/-- `Encode::encode_to_buf` on a byte payload: the bytes appended for the
whole input. -/
def urlEncode (s : List Nat) : List Nat := s.flatMap encByte

/-- `slice::split` on one separator byte, as used by
`Decode::encode_to_buf` (`src/string/urlencoding.rs` line 106): the
(possibly empty) chunks between occurrences of `c`; the empty input gives
one empty chunk. -/
def splitOnByte (c : Nat) : List Nat → List (List Nat)
  | [] => [[]]
  | b :: t =>
    if b = c then [] :: splitOnByte c t
    else
      match splitOnByte c t with
      | [] => [[b]]
      | h :: r => (b :: h) :: r

/-- Per-segment step of `Decode::encode_to_buf`
(`src/string/urlencoding.rs` lines 112–129): when the segment starts with
two valid hex digits, push the decoded byte (`(hi << 4) | lo`) followed by
the rest of the segment; otherwise push a literal `'%'` followed by the
whole segment unchanged. -/
def processSegment (seg : List Nat) : List Nat :=
  match seg with
  | h1 :: h2 :: t =>
    match fromHexDigit h1, fromHexDigit h2 with
    | some a, some b => ((a <<< 4) ||| b) :: t
    | _, _ => 37 :: seg
  | _ => 37 :: seg

/-- The segment recombination of `Decode::encode_to_buf`: the first
chunk is emitted verbatim, every later chunk through `processSegment`. -/
def decodeSegs : List (List Nat) → List Nat
  | [] => []
  | first :: rest => first ++ rest.flatMap processSegment

/-- `Decode::encode_to_buf` (`src/string/urlencoding.rs` lines 102–130)
on a byte payload: the bytes appended for the whole input. -/
def urlDecode (s : List Nat) : List Nat := decodeSegs (splitOnByte 37 s)

/-- Whether a segment after `'%'` fails to start with two valid hex
digits (the "Error, keep it" branch of the decoder). -/
def isMalformedSeg (seg : List Nat) : Bool :=
  match seg with
  | h1 :: h2 :: _ => (fromHexDigit h1).isNone || (fromHexDigit h2).isNone
  | _ => true

end Url

/-- The UTF-8 bytes of the text `"你好, 世界"` (two CJK characters, a
comma, a space, two CJK characters). -/
def niHaoBytes : List Nat :=
  [0xE4, 0xBD, 0xA0, 0xE5, 0xA5, 0xBD, 0x2C, 0x20, 0xE4, 0xB8, 0x96,
   0xE7, 0x95, 0x8C]

namespace HexFixed

/-- The staging-buffer fill loop of `HexStr::<N, P, U>::encode`
(`src/string/hex.rs` lines 64–75): `buffer[idx] = i` for each pair of the
zip of the reversed index range `(0..N).rev()` with the reversed input
iterator. -/
def fillRev (buf : List Nat) : List (Nat × Nat) → List Nat
  | [] => buf
  | (idx, v) :: rest => fillRev (buf.set idx v) rest

/-- The staging buffer of `HexStr::<N, P, U>::encode`: an `N`-byte zero
buffer filled by the loop above. -/
def staging (N : Nat) (input : List Nat) : List Nat :=
  fillRev (List.replicate N 0) ((List.range N).reverse.zip input.reverse)

/-- Modelled from the spec: the vendored `const_hex::Buffer::<N, P>`
formatter (spec §4.4/§6, not part of this repository) renders every
staging byte as two hex characters — uppercase when `U` — after an
optional `"0x"` prefix when `P`. -/
def constHexFormat (P U : Bool) (bytes : List Nat) : List Nat :=
  (if P then [48, 120] else [])
    ++ bytes.flatMap fun b =>
        [NumStr.digitByte U (b / 16), NumStr.digitByte U (b % 16)]

/-- `HexStr::<N, P, U>::encode` appending to a buffer (`src/string/hex.rs`
lines 59–97): stage the input right-aligned into `N` zero bytes, then
append the fixed-width hex rendering. -/
def hexStrEncode (N : Nat) (P U : Bool) (input buf : List Nat) : List Nat :=
  buf ++ constHexFormat P U (staging N input)

end HexFixed

namespace B64

/-- `std::str::from_utf8` validity on a byte sequence (the check used by
the `Decode` command): standard UTF-8 acceptance — ASCII, two-byte
sequences `C2..DF`, three-byte sequences `E0/E1..EC/ED/EE..EF` with their
restricted second bytes (no overlongs, no surrogates), four-byte
sequences `F0..F4` with their restricted second bytes, continuation
bytes `80..BF`. -/
def contByte (b : Nat) : Bool := decide (128 ≤ b ∧ b ≤ 191)

def isValidUtf8 : List Nat → Bool
  | [] => true
  | b :: rest =>
    if b ≤ 0x7F then isValidUtf8 rest
    else if 0xC2 ≤ b ∧ b ≤ 0xDF then
      match rest with
      | c1 :: rest2 => contByte c1 && isValidUtf8 rest2
      | [] => false
    else if 0xE0 ≤ b ∧ b ≤ 0xEF then
      match rest with
      | c1 :: c2 :: rest2 =>
        (if b = 0xE0 then decide (0xA0 ≤ c1 ∧ c1 ≤ 0xBF)
         else if b = 0xED then decide (0x80 ≤ c1 ∧ c1 ≤ 0x9F)
         else contByte c1) && contByte c2 && isValidUtf8 rest2
      | _ => false
    else if 0xF0 ≤ b ∧ b ≤ 0xF4 then
      match rest with
      | c1 :: c2 :: c3 :: rest2 =>
        (if b = 0xF0 then decide (0x90 ≤ c1 ∧ c1 ≤ 0xBF)
         else if b = 0xF4 then decide (0x80 ≤ c1 ∧ c1 ≤ 0x8F)
         else contByte c1) && contByte c2 && contByte c3
          && isValidUtf8 rest2
      | _ => false
    else false

/-- `Base64Str<T, _, Decode>::encode_to_buf` (`src/string/base64.rs`
lines 147–159): run the vendored Base64 engine (`dec`, kept abstract —
it is a third-party dependency), fall back to the empty vector on error
(`unwrap_or_default`), and append the result only when it is valid
UTF-8. -/
def decodeCmd (dec : List Nat → Option (List Nat)) (inner buf : List Nat) :
    List Nat :=
  let data := (dec inner).getD []
  if isValidUtf8 data then buf ++ data else buf

/-- `Base64Str<T, _, DecodeToHex>::encode_to_buf` (`src/string/base64.rs`
lines 222–233): decode with empty-vector fallback, then render each
decoded byte through `NumStr::hex_byte_default`
(`NumStr::<16, false, 2, 0, u8>`) onto the buffer. -/
def decodeToHexCmd (dec : List Nat → Option (List Nat))
    (inner buf : List Nat) : List Nat :=
  ((dec inner).getD []).foldl
    (fun b byte => NumStr.encodeUnsigned 16 false 2 0 byte b) buf

end B64

namespace Rng

/-- One xorshift* state transition of `fast_random` (`src/random.rs`
lines 121–130) on the 64-bit thread-local state: `n ^= n >> 12;
n ^= n << 25; n ^= n >> 27` with wrapping 64-bit shifts (`Wrapping<u64>`),
embedded as `Nat` arithmetic with an explicit `% 2 ^ 64` on the left
shift (right shifts and xor cannot exceed 64 bits). -/
def xorshiftStep (n : Nat) : Nat :=
  let a := n ^^^ (n >>> 12)
  let b := a ^^^ ((a <<< 25) % 2 ^ 64)
  b ^^^ (b >>> 27)

/-- One full `fast_random` draw: the pair of the new stored state and the
returned value `n' * 0x2545F4914F6CDD1D` (wrapping 64-bit multiply). -/
def fastRandomStep (n : Nat) : Nat × Nat :=
  let n2 := xorshiftStep n
  (n2, n2 * 0x2545F4914F6CDD1D % 2 ^ 64)

end Rng

namespace NumStr

theorem digitByte_zero (U : Bool) : digitByte U 0 = 48 := by
  cases U <;> rfl

theorem map_const_range (s c : Nat) :
    (List.range s).map (fun _ => c) = List.replicate s c := by
  induction s with
  | zero => rfl
  | succ n ih =>
    rw [List.range_succ, List.map_append, ih, List.map_singleton,
      ← List.replicate_succ']

theorem windowLSF_eq (B : Nat) (U : Bool) (hB : 2 ≤ B) :
    ∀ R v, windowLSF B U v R
      = (List.range R).map fun i => digitByte U (v / B ^ i % B) := by
  intro R
  induction R with
  | zero => intro v; rfl
  | succ s ih =>
    intro v
    rw [List.range_succ_eq_map, List.map_cons, List.map_map]
    show digitByte U (v % B) ::
        (if v / B = 0 then List.replicate s 48 else windowLSF B U (v / B) s)
      = digitByte U (v / B ^ 0 % B) :: _
    simp only [pow_zero, Nat.div_one]
    congr 1
    have hcomp : ∀ i : Nat,
        ((fun i => digitByte U (v / B ^ i % B)) ∘ Nat.succ) i
          = digitByte U (v / B / B ^ i % B) := by
      intro i
      simp only [Function.comp_apply, pow_succ]
      rw [Nat.div_div_eq_div_mul, mul_comm (B ^ i) B, ← pow_succ']
    by_cases h : v / B = 0
    · rw [if_pos h]
      have : ∀ i ∈ List.range s,
          ((fun i => digitByte U (v / B ^ i % B)) ∘ Nat.succ) i = 48 := by
        intro i _
        rw [hcomp i, h, Nat.zero_div, Nat.zero_mod, digitByte_zero]
      rw [List.map_congr_left this, map_const_range]
    · rw [if_neg h, ih (v / B)]
      refine List.map_congr_left ?_
      intro i _
      rw [hcomp i]

theorem lsWindowBytes_zero (B : Nat) (U : Bool) (R : Nat) :
    lsWindowBytes B U R 0 = List.replicate R 48 := by
  unfold lsWindowBytes
  have : ∀ i ∈ (List.range R).reverse,
      digitByte U (0 / B ^ i % B) = 48 := by
    intro i _
    rw [Nat.zero_div, Nat.zero_mod, digitByte_zero]
  calc (List.range R).reverse.map (fun i => digitByte U (0 / B ^ i % B))
      = (List.range R).reverse.map (fun _ => 48) := List.map_congr_left this
    _ = List.replicate ((List.range R).reverse.length) 48 := by
        rw [List.map_const']
    _ = List.replicate R 48 := by rw [List.length_reverse, List.length_range]

theorem digitsLSF_zero (B : Nat) (U : Bool) : digitsLSF B U 0 = [] := by
  rw [digitsLSF]
  exact dif_pos (Or.inl rfl)

theorem windowLSF_eq_resize (B : Nat) (U : Bool) (hB : 2 ≤ B) :
    ∀ R v, v ≠ 0 → windowLSF B U v R = resizeVec (digitsLSF B U v) R 48 := by
  intro R
  induction R with
  | zero =>
    intro v _
    simp [windowLSF, resizeVec]
  | succ s ih =>
    intro v hv
    have hB1 : ¬(v = 0 ∨ B ≤ 1) := by
      push_neg
      exact ⟨hv, by omega⟩
    rw [digitsLSF, dif_neg hB1]
    have hres : resizeVec (digitByte U (v % B) :: digitsLSF B U (v / B)) (s + 1) 48
        = digitByte U (v % B) :: resizeVec (digitsLSF B U (v / B)) s 48 := by
      simp [resizeVec, List.take_succ_cons, Nat.succ_sub_succ]
    rw [hres]
    show digitByte U (v % B) ::
        (if v / B = 0 then List.replicate s 48 else windowLSF B U (v / B) s)
      = _
    congr 1
    by_cases h : v / B = 0
    · rw [if_pos h, h, digitsLSF_zero]
      simp [resizeVec]
    · rw [if_neg h, ih (v / B) h]

theorem encodeUnsigned_default (B : Nat) (U : Bool) (n : Nat)
    (buf : List Nat) : encodeUnsigned B U 0 0 n buf = buf ++ msfBytes B U n := by
  by_cases hn : n = 0
  · simp [encodeUnsigned, hn, msfBytes]
  · simp [encodeUnsigned, hn, msfBytes]

end NumStr

/-- C2 (amended): for every base `B` in `2..=16`, resize length `R > 0`,
minimum length `M` and unsigned value `v`, the current unsigned
`NumStr::encode` (`src/string/number.rs`) appends exactly `R` bytes to the
buffer: the `R` least-significant base-`B` digits of `v` in
most-significant-first order, left-filled with `'0'` (so `v = 0` gives `R`
`'0'` bytes and digits above the window are dropped), and `M` has no
effect.  The superseded v1 encoder (`src/string.rs`) produces the same
`R`-byte window for every `v ≠ 0`, but renders `v = 0` as the single byte
`'0'` regardless of `R`. -/
theorem c2_resize_window (B : Nat) (U : Bool) (R M v : Nat)
    (string : List Nat) (hB : 2 ≤ B) (_hB16 : B ≤ 16) (hR : 0 < R) :
    NumStr.encodeUnsigned B U R M v string
        = string ++ NumStr.lsWindowBytes B U R v
      ∧ (NumStr.encodeUnsigned B U R M v string).length = string.length + R
      ∧ NumStr.encodeUnsigned B U R M v string
          = NumStr.encodeUnsigned B U R 0 v string
      ∧ NumStr.encodeV1 B U R M v
          = (if v = 0 then [48] else NumStr.lsWindowBytes B U R v) := by
  have hwin : ∀ w : Nat, (NumStr.windowLSF B U w R).reverse
      = NumStr.lsWindowBytes B U R w := by
    intro w
    rw [NumStr.windowLSF_eq B U hB R w, NumStr.lsWindowBytes, List.map_reverse]
  have h1 : NumStr.encodeUnsigned B U R M v string
      = string ++ NumStr.lsWindowBytes B U R v := by
    by_cases hv : v = 0
    · rw [NumStr.encodeUnsigned, if_pos hR, if_pos hv, hv,
        NumStr.lsWindowBytes_zero]
    · rw [NumStr.encodeUnsigned, if_pos hR, if_neg hv, hwin v]
  refine ⟨h1, ?_, ?_, ?_⟩
  · rw [h1]
    simp [NumStr.lsWindowBytes]
  · simp only [NumStr.encodeUnsigned, if_pos hR]
  · by_cases hv : v = 0
    · rw [NumStr.encodeV1, if_pos hv, if_pos hv]
    · rw [NumStr.encodeV1, if_neg hv, if_neg hv]
      simp only [if_pos (by omega : R ≠ 0)]
      rw [← NumStr.windowLSF_eq_resize B U hB R v hv, hwin v]

/-- C2 counterexample: the claim asserts that with resize length `R > 0`
encoding always appends exactly `R` characters, `v = 0` giving `R` `'0'`
characters; the superseded v1 encoder (`src/string.rs` lines 963–988,
also cited by the claim) instead short-circuits `v = 0` to the single
character `"0"`, here with base 16 and `R = 5`. -/
theorem c2_counterexample :
    NumStr.encodeV1 16 false 5 0 0 = asciiBytes "0"
      ∧ (NumStr.encodeV1 16 false 5 0 0).length ≠ 5 := by
  decide

/-- C2 witness: the amended statement instantiated at base 16, `R = 5`,
`M = 3`, value `0x123456` on the empty buffer. -/
theorem c2_resize_window_witness :
    ((2:Nat) ≤ 16 ∧ (16:Nat) ≤ 16 ∧ (0:Nat) < 5)
      ∧ (NumStr.encodeUnsigned 16 false 5 3 0x123456 []
            = [] ++ NumStr.lsWindowBytes 16 false 5 0x123456
        ∧ (NumStr.encodeUnsigned 16 false 5 3 0x123456 []).length
            = List.length ([] : List Nat) + 5
        ∧ NumStr.encodeUnsigned 16 false 5 3 0x123456 []
            = NumStr.encodeUnsigned 16 false 5 0 0x123456 []
        ∧ NumStr.encodeV1 16 false 5 3 0x123456
            = (if 0x123456 = 0 then [48]
               else NumStr.lsWindowBytes 16 false 5 0x123456)) :=
  ⟨⟨by decide, by decide, by decide⟩,
    c2_resize_window 16 false 5 3 0x123456 [] (by decide) (by decide)
      (by decide)⟩

/-- C3: for every base `2 ≤ B`, signed `NumStr::encode` produces the same
bytes as the default `R = 0`, `M = 0` configuration would for every
resize/minimum configuration and every signed value — a `'-'` sign first
when the value is negative, followed by the base-`B` digits of the
absolute magnitude. -/
theorem c3_signed_ignores_resize (B : Nat) (U : Bool) (R M : Nat) (v : Int)
    (string : List Nat) (_hB : 2 ≤ B) :
    NumStr.encodeSigned B U R M v string
        = NumStr.encodeSigned B U 0 0 v string
      ∧ NumStr.encodeSigned B U R M v string
          = string ++ (if v < 0 then [45] else [])
              ++ NumStr.msfBytes B U v.natAbs := by
  constructor
  · rfl
  · rw [NumStr.encodeSigned, NumStr.encodeUnsigned_default]
    by_cases hv : v < 0
    · simp [hv]
    · simp [hv]

/-- C3 witness: the statement instantiated at base 10, `R = 7`, `M = 4`,
value `-123456789` on the empty buffer. -/
theorem c3_signed_ignores_resize_witness :
    (2:Nat) ≤ 10
      ∧ (NumStr.encodeSigned 10 false 7 4 (-123456789) []
            = NumStr.encodeSigned 10 false 0 0 (-123456789) []
        ∧ NumStr.encodeSigned 10 false 7 4 (-123456789) []
            = [] ++ (if (-123456789:Int) < 0 then [45] else [])
                ++ NumStr.msfBytes 10 false (Int.natAbs (-123456789))) :=
  ⟨by decide,
    c3_signed_ignores_resize 10 false 7 4 (-123456789) [] (by decide)⟩

/-- C1: evaluation of the with-separator surfaces at three text values and
separator `","`. The v2 `sep =` form (tuple + `push_any_with_separator`)
yields `"a,,b,,c"` — each element's with-separator encoding already
appends the separator and the tuple implementation appends it again — not
the `"a,b,c"` that the claim, the spec, the doc example in
`src/string_v2.rs` and the in-repo test `test_separator` require; the
superseded v1 `str_concat!(sep = ...)` path does produce `"a,b,c"`, and
the empty sequence yields the empty string. -/
theorem c1_separator_evaluation :
    StrV2.toStringExtWithSeparator
        (StrV2.tuple3T (StrV2.strT (asciiBytes "a"))
          (StrV2.strT (asciiBytes "b")) (StrV2.strT (asciiBytes "c")))
        (asciiBytes ",")
      = asciiBytes "a,,b,,c"
    ∧ asciiBytes "a,,b,,c"
      ≠ asciiBytes "a" ++ asciiBytes "," ++ asciiBytes "b"
          ++ asciiBytes "," ++ asciiBytes "c"
    ∧ StrV1.strConcatSep
        [asciiBytes "a", asciiBytes "b", asciiBytes "c"] (asciiBytes ",")
      = some (asciiBytes "a,b,c")
    ∧ StrV2.toStringExtWithSeparator (StrV2.iterT []) (asciiBytes ",")
      = ([] : List Nat) := by
  decide

/-- C8 counterexample: the claim asserts that appending `()` via
`push_any_with_separator` leaves the buffer exactly unchanged for every
prior content and separator; on buffer `"abc"` with separator `","`, the
unit value appends nothing and the unconditional trailing-separator trim
then removes the final byte, yielding `"ab"` ≠ `"abc"`. -/
theorem c8_counterexample :
    StrV2.pushAnyWithSeparator StrV2.unitT (asciiBytes ",") (asciiBytes "abc")
        = asciiBytes "ab"
      ∧ asciiBytes "ab" ≠ asciiBytes "abc" := by
  decide

/-- C8 (amended): appending the unit value `()` is a no-op in every plain
append form (`StringT::encode_to_buf`, both v1 `push_to_string` forms) and
in its own `encode_to_buf_with_separator` (no separator is emitted); the
v2 `push_any_with_separator` wrapper, however, still performs its
unconditional trailing trim, so it removes the final `separator.len()`
bytes of the pre-existing buffer (when the buffer is at least that long)
instead of leaving it unchanged. -/
theorem c8_unit_noop (sep buf : List Nat) :
    StrV2.pushAny StrV2.unitT buf = buf
      ∧ StrV2.unitT.encodeToBuf buf = buf
      ∧ StrV2.unitT.encodeToBufWithSeparator sep buf = buf
      ∧ StrV1.unitPush buf = buf
      ∧ StrV1.unitPushWithSep sep buf = buf
      ∧ StrV2.pushAnyWithSeparator StrV2.unitT sep buf
          = (if sep.length ≤ buf.length
             then buf.take (buf.length - sep.length) else buf) :=
  ⟨rfl, rfl, rfl, rfl, rfl, rfl⟩

/-- C10: the trailing-separator removal of the with-separator surfaces is
unconditional.  `push_any_with_separator` always truncates the final
`separator.len()` bytes after encoding the value (whenever the buffer is
long enough — the bytes removed are never compared with the separator),
and the v1 `&str` `remove_end` / `into_string_remove_tail` likewise
truncate `separator.len()` bytes from the buffer end unconditionally; in
consequence a value that appends nothing loses pre-existing buffer bytes
(`()` on `"abc"` gives `"ab"`), and a buffer not ending in the separator
still loses its tail (`into_string_remove_tail` on `"abc"` with `","`
gives `"ab"`). -/
theorem c10_unconditional_trim (v : StrV2.StringTImpl) (sep buf : List Nat)
    (h : sep.length ≤ (v.encodeToBufWithSeparator sep buf).length) :
    StrV2.pushAnyWithSeparator v sep buf
        = (v.encodeToBufWithSeparator sep buf).take
            ((v.encodeToBufWithSeparator sep buf).length - sep.length)
      ∧ StrV1.removeEnd sep buf
          = (if sep.length ≤ buf.length
             then some (buf.take (buf.length - sep.length)) else none)
      ∧ StrV2.pushAnyWithSeparator StrV2.unitT (asciiBytes ",")
            (asciiBytes "abc") = asciiBytes "ab"
      ∧ StrV1.intoStringRemoveTail (asciiBytes ",") (asciiBytes "abc")
          = some (asciiBytes "ab") := by
  refine ⟨?_, rfl, by decide, by decide⟩
  rw [StrV2.pushAnyWithSeparator, StrV2.removeSeparatorTailing, if_pos h]

/-- C10 witness: the statement instantiated at the unit value, separator
`","` and buffer `"abc"`. -/
theorem c10_unconditional_trim_witness :
    (asciiBytes ",").length
        ≤ ((StrV2.unitT.encodeToBufWithSeparator (asciiBytes ",")
            (asciiBytes "abc"))).length
      ∧ (StrV2.pushAnyWithSeparator StrV2.unitT (asciiBytes ",")
              (asciiBytes "abc")
            = ((StrV2.unitT.encodeToBufWithSeparator (asciiBytes ",")
                (asciiBytes "abc"))).take
                (((StrV2.unitT.encodeToBufWithSeparator (asciiBytes ",")
                  (asciiBytes "abc"))).length - (asciiBytes ",").length)
        ∧ StrV1.removeEnd (asciiBytes ",") (asciiBytes "abc")
            = (if (asciiBytes ",").length ≤ (asciiBytes "abc").length
               then some ((asciiBytes "abc").take
                  ((asciiBytes "abc").length - (asciiBytes ",").length))
               else none)
        ∧ StrV2.pushAnyWithSeparator StrV2.unitT (asciiBytes ",")
              (asciiBytes "abc") = asciiBytes "ab"
        ∧ StrV1.intoStringRemoveTail (asciiBytes ",") (asciiBytes "abc")
            = some (asciiBytes "ab")) :=
  ⟨by decide,
    c10_unconditional_trim StrV2.unitT (asciiBytes ",") (asciiBytes "abc")
      (by decide)⟩

namespace Url

theorem splitOnByte_ne_nil (c : Nat) : ∀ l, splitOnByte c l ≠ [] := by
  intro l
  induction l with
  | nil => simp [splitOnByte]
  | cons b t ih =>
    rw [splitOnByte]
    by_cases h : b = c
    · simp [h]
    · rw [if_neg h]
      cases hsp : splitOnByte c t with
      | nil => exact absurd hsp ih
      | cons x r => simp

theorem decodeSegs_cons_ne (b : Nat) (t : List Nat) (hb : b ≠ 37) :
    decodeSegs (splitOnByte 37 (b :: t)) = b :: decodeSegs (splitOnByte 37 t) := by
  rw [splitOnByte, if_neg hb]
  cases hsp : splitOnByte 37 t with
  | nil => exact absurd hsp (splitOnByte_ne_nil 37 t)
  | cons h r => simp [decodeSegs]

theorem splitOnByte_cons_self (c : Nat) (t : List Nat) :
    splitOnByte c (c :: t) = [] :: splitOnByte c t := by
  rw [splitOnByte, if_pos rfl]

theorem decodeSegs_escape (h1 h2 a b : Nat) (t : List Nat)
    (hh1 : h1 ≠ 37) (hh2 : h2 ≠ 37)
    (ha : fromHexDigit h1 = some a) (hb : fromHexDigit h2 = some b) :
    decodeSegs (splitOnByte 37 (37 :: h1 :: h2 :: t))
      = ((a <<< 4) ||| b) :: decodeSegs (splitOnByte 37 t) := by
  rw [splitOnByte_cons_self]
  rw [splitOnByte, if_neg hh1, splitOnByte, if_neg hh2]
  cases hsp : splitOnByte 37 t with
  | nil => exact absurd hsp (splitOnByte_ne_nil 37 t)
  | cons x r => simp [decodeSegs, processSegment, ha, hb]

theorem toHexDigit_ne_37 (d : Nat) : toHexDigit d ≠ 37 := by
  rw [toHexDigit]
  by_cases h : d ≤ 9 <;> simp [h] <;> omega

theorem fromHexDigit_toHexDigit (d : Nat) (hd : d < 16) :
    fromHexDigit (toHexDigit d) = some d := by
  revert d
  decide

theorem recombine_nibbles (b : Nat) :
    ((b >>> 4) <<< 4) ||| (b &&& 15) = b := by
  have h15 : b &&& 15 = b % 16 := Nat.and_pow_two_sub_one_eq_mod b 4
  have h4 : b >>> 4 = b / 16 := Nat.shiftRight_eq_div_pow b 4
  have hlt : b % 16 < 16 := Nat.mod_lt _ (by omega)
  have h1 : (b >>> 4) <<< 4 = 2 ^ 4 * (b / 16) := by
    rw [h4, Nat.shiftLeft_eq]; ring
  rw [h15, h1, ← Nat.mul_add_lt_is_or hlt (b / 16)]
  omega

theorem isUnreserved_37 : isUnreserved 37 = false := by decide

theorem urlDecode_urlEncode (s : List Nat) (hs : ∀ b ∈ s, b < 256) :
    urlDecode (urlEncode s) = s := by
  induction s with
  | nil => rfl
  | cons b t ih =>
    have hb : b < 256 := hs b (List.mem_cons_self b t)
    have ht : ∀ x ∈ t, x < 256 := fun x hx => hs x (List.mem_cons_of_mem b hx)
    have ih' := ih ht
    rw [urlEncode, List.flatMap_cons]
    by_cases hu : isUnreserved b
    · have hb37 : b ≠ 37 := by
        intro hbe
        rw [hbe, isUnreserved_37] at hu
        exact Bool.false_ne_true hu
      rw [encByte, if_pos hu]
      show urlDecode (b :: urlEncode t) = b :: t
      rw [urlDecode, decodeSegs_cons_ne b _ hb37]
      rw [← urlDecode, ih']
    · rw [encByte, if_neg hu]
      show urlDecode (37 :: toHexDigit (b >>> 4) :: toHexDigit (b &&& 15)
          :: urlEncode t) = b :: t
      have hhi : b >>> 4 < 16 := by
        rw [Nat.shiftRight_eq_div_pow]
        omega
      have hlo : b &&& 15 < 16 := by
        rw [Nat.and_pow_two_sub_one_eq_mod b 4]
        exact Nat.mod_lt _ (by omega)
      rw [urlDecode, decodeSegs_escape _ _ (b >>> 4) (b &&& 15) _
        (toHexDigit_ne_37 _) (toHexDigit_ne_37 _)
        (fromHexDigit_toHexDigit _ hhi) (fromHexDigit_toHexDigit _ hlo)]
      rw [recombine_nibbles, ← urlDecode, ih']

end Url

namespace Url

theorem splitOnByte_no_sep (c : Nat) :
    ∀ l, c ∉ l → splitOnByte c l = [l] := by
  intro l
  induction l with
  | nil => intro _; rfl
  | cons b t ih =>
    intro hmem
    have hb : b ≠ c := fun hbc => hmem (hbc ▸ List.mem_cons_self b t)
    have ht : c ∉ t := fun hct => hmem (List.mem_cons_of_mem b hct)
    rw [splitOnByte, if_neg hb, ih ht]

theorem splitOnByte_append (u seg : List Nat) (hu : 37 ∉ u)
    (hseg : 37 ∉ seg) : splitOnByte 37 (u ++ 37 :: seg) = [u, seg] := by
  induction u with
  | nil =>
    rw [List.nil_append, splitOnByte_cons_self, splitOnByte_no_sep 37 seg hseg]
  | cons b t ih =>
    have hb : b ≠ 37 := fun hbc => hu (hbc ▸ List.mem_cons_self b t)
    have ht : 37 ∉ t := fun hct => hu (List.mem_cons_of_mem b hct)
    rw [List.cons_append, splitOnByte, if_neg hb, ih ht]

theorem urlDecode_split (u seg : List Nat) (hu : 37 ∉ u) (hseg : 37 ∉ seg) :
    urlDecode (u ++ 37 :: seg) = u ++ processSegment seg := by
  rw [urlDecode, splitOnByte_append u seg hu hseg]
  simp [decodeSegs]

theorem processSegment_malformed (seg : List Nat)
    (h : isMalformedSeg seg = true) : processSegment seg = 37 :: seg := by
  cases seg with
  | nil => rfl
  | cons h1 rest =>
    cases rest with
    | nil => rfl
    | cons h2 t =>
      rw [isMalformedSeg] at h
      cases hfa : fromHexDigit h1 with
      | none => simp [processSegment, hfa]
      | some a =>
        cases hfb : fromHexDigit h2 with
        | none => simp [processSegment, hfa, hfb]
        | some b =>
          rw [hfa, hfb] at h
          simp at h

end Url

/-- C5: percent-decoding inverts percent-encoding: for every byte sequence
(in particular every UTF-8 string) decoding the encoding returns the input
exactly; encoding the UTF-8 bytes of `"你好, 世界"` yields
`"%E4%BD%A0%E5%A5%BD%2C%20%E4%B8%96%E7%95%8C"` and decoding that text
yields the bytes back; the encoder leaves unescaped exactly ASCII letters,
digits and `'-' '.' '_' '~'` and escapes every other byte as `'%'` plus
two uppercase hex digits. -/
theorem c5_percent_roundtrip (s : List Nat) (hs : ∀ b ∈ s, b < 256) :
    Url.urlDecode (Url.urlEncode s) = s
      ∧ Url.urlEncode niHaoBytes
          = asciiBytes "%E4%BD%A0%E5%A5%BD%2C%20%E4%B8%96%E7%95%8C"
      ∧ Url.urlDecode (asciiBytes "%E4%BD%A0%E5%A5%BD%2C%20%E4%B8%96%E7%95%8C")
          = niHaoBytes
      ∧ (∀ b, b < 256 → Url.encByte b
          = (if (48 ≤ b ∧ b ≤ 57) ∨ (65 ≤ b ∧ b ≤ 90) ∨ (97 ≤ b ∧ b ≤ 122)
                ∨ b = 45 ∨ b = 46 ∨ b = 95 ∨ b = 126
             then [b]
             else [37, Url.toHexDigit (b / 16), Url.toHexDigit (b % 16)]))
      ∧ (∀ d, d < 16 → Url.toHexDigit d ∈ asciiBytes "0123456789ABCDEF") :=
  ⟨Url.urlDecode_urlEncode s hs, by decide, by decide,
    by
      intro b hb
      have h4 : b >>> 4 = b / 16 := Nat.shiftRight_eq_div_pow b 4
      have h15 : b &&& 15 = b % 16 := Nat.and_pow_two_sub_one_eq_mod b 4
      rw [Url.encByte, Url.isUnreserved, h4, h15]
      by_cases h : (48 ≤ b ∧ b ≤ 57) ∨ (65 ≤ b ∧ b ≤ 90)
          ∨ (97 ≤ b ∧ b ≤ 122) ∨ b = 45 ∨ b = 46 ∨ b = 95 ∨ b = 126
      · rw [if_pos h, if_pos (by exact decide_eq_true h)]
      · rw [if_neg h, if_neg (by simpa using h)]
    , by decide⟩

/-- C5 witness: the round trip instantiated at the UTF-8 bytes of
`"你好, 世界"`. -/
theorem c5_percent_roundtrip_witness :
    (∀ b ∈ niHaoBytes, b < 256)
      ∧ (Url.urlDecode (Url.urlEncode niHaoBytes) = niHaoBytes
        ∧ Url.urlEncode niHaoBytes
            = asciiBytes "%E4%BD%A0%E5%A5%BD%2C%20%E4%B8%96%E7%95%8C"
        ∧ Url.urlDecode
              (asciiBytes "%E4%BD%A0%E5%A5%BD%2C%20%E4%B8%96%E7%95%8C")
            = niHaoBytes
        ∧ (∀ b, b < 256 → Url.encByte b
            = (if (48 ≤ b ∧ b ≤ 57) ∨ (65 ≤ b ∧ b ≤ 90) ∨ (97 ≤ b ∧ b ≤ 122)
                  ∨ b = 45 ∨ b = 46 ∨ b = 95 ∨ b = 126
               then [b]
               else [37, Url.toHexDigit (b / 16), Url.toHexDigit (b % 16)]))
        ∧ (∀ d, d < 16 → Url.toHexDigit d ∈ asciiBytes "0123456789ABCDEF")) :=
  ⟨by decide, c5_percent_roundtrip niHaoBytes (by decide)⟩

/-- C6: percent-decoding accepts both uppercase and lowercase hex digits
after `'%'` (mapping them to the decoded byte followed by the rest of the
segment), and a `'%'` not followed by two valid hex digits is passed
through verbatim — a literal `'%'` followed by the segment unchanged,
never dropped and never an error.  `u` is the non-escaped part before the
`'%'`, `seg` the rest of the input after it. -/
theorem c6_decode_malformed_preserved (u seg : List Nat) (hu : 37 ∉ u)
    (hseg : 37 ∉ seg) :
    (∀ h1 h2 t a b, seg = h1 :: h2 :: t → Url.fromHexDigit h1 = some a →
        Url.fromHexDigit h2 = some b →
        Url.urlDecode (u ++ 37 :: seg) = u ++ ((a <<< 4) ||| b) :: t)
      ∧ (Url.isMalformedSeg seg = true →
          Url.urlDecode (u ++ 37 :: seg) = u ++ 37 :: seg)
      ∧ (∀ d, d < 16 →
          Url.fromHexDigit (NumStr.HEX_CHARS_LOWER.getD d 0) = some d
            ∧ Url.fromHexDigit (NumStr.HEX_CHARS_UPPER.getD d 0) = some d) := by
  refine ⟨?_, ?_, by decide⟩
  · intro h1 h2 t a b hseq ha hb
    rw [Url.urlDecode_split u seg hu hseg, hseq]
    simp [Url.processSegment, ha, hb]
  · intro hmal
    rw [Url.urlDecode_split u seg hu hseg,
      Url.processSegment_malformed seg hmal]

/-- C6 witness: decoding `"%2c"` (lowercase) and `"%2C"` (uppercase)
yields the comma byte 44, and the malformed escape in `"100% done"` is
preserved verbatim. -/
theorem c6_decode_malformed_preserved_witness :
    Url.urlDecode (asciiBytes "%2c") = [44]
      ∧ Url.urlDecode (asciiBytes "%2C") = [44]
      ∧ Url.urlDecode (asciiBytes "100% done") = asciiBytes "100% done" := by
  refine ⟨?_, ?_, ?_⟩
  · have h := (c6_decode_malformed_preserved [] [50, 99] (by decide)
      (by decide)).1 50 99 [] 2 12 rfl (by decide) (by decide)
    simpa using h
  · have h := (c6_decode_malformed_preserved [] [50, 67] (by decide)
      (by decide)).1 50 67 [] 2 12 rfl (by decide) (by decide)
    simpa using h
  · have h := (c6_decode_malformed_preserved (asciiBytes "100")
      (asciiBytes " done") (by decide) (by decide)).2.1 (by decide)
    simpa using h

namespace HexFixed

theorem fillRev_zip_range (w : List Nat) :
    ∀ (K : Nat) (buf : List Nat), K ≤ buf.length →
      fillRev buf ((List.range K).reverse.zip w)
        = buf.take (K - min K w.length) ++ (w.take K).reverse
            ++ buf.drop K := by
  induction w with
  | nil =>
    intro K buf _
    simp [fillRev, List.zip_nil_right, List.take_append_drop]
  | cons v w' ih =>
    intro K buf hK
    cases K with
    | zero => simp [fillRev]
    | succ k =>
      have hrange : (List.range (k + 1)).reverse
          = k :: (List.range k).reverse := by
        rw [List.range_succ, List.reverse_append, List.reverse_singleton,
          List.singleton_append]
      rw [hrange, List.zip_cons_cons]
      show fillRev (buf.set k v) ((List.range k).reverse.zip w') = _
      have hk : k ≤ (buf.set k v).length := by
        rw [List.length_set]; omega
      rw [ih k (buf.set k v) hk]
      have h1 : (buf.set k v).take (k - min k w'.length)
          = buf.take (k - min k w'.length) := by
        rw [List.set_take]
        refine List.set_eq_of_length_le ?_
        calc (buf.take (k - min k w'.length)).length
            ≤ k - min k w'.length := by
              rw [List.length_take]; omega
          _ ≤ k := by omega
      have h2 : (buf.set k v).drop k = v :: buf.drop (k + 1) := by
        rw [List.drop_set, if_neg (lt_irrefl k), Nat.sub_self]
        rw [List.drop_eq_getElem_cons (by omega : k < buf.length)]
        rfl
      rw [h1, h2]
      have hmin : (k + 1) - min (k + 1) (w'.length + 1)
          = k - min k w'.length := by omega
      show _ = buf.take ((k + 1) - min (k + 1) ((v :: w').length))
          ++ ((v :: w').take (k + 1)).reverse ++ buf.drop (k + 1)
      rw [List.length_cons, hmin, List.take_succ_cons, List.reverse_cons]
      simp [List.append_assoc]

theorem staging_eq (N : Nat) (input : List Nat) :
    staging N input
      = List.replicate (N - input.length) 0
          ++ input.drop (input.length - N) := by
  rw [staging, fillRev_zip_range input.reverse N (List.replicate N 0)
    (by rw [List.length_replicate])]
  rw [List.take_reverse, List.reverse_reverse, List.length_reverse]
  rw [List.take_replicate]
  rw [List.drop_eq_nil_of_le
    (by rw [List.length_replicate] : (List.replicate N 0).length ≤ N)]
  rw [List.append_nil]
  have h : min (N - min N input.length) N = N - input.length := by omega
  rw [h]

theorem flatMap_pair_length (f g : Nat → Nat) (l : List Nat) :
    (l.flatMap fun b => [f b, g b]).length = 2 * l.length := by
  induction l with
  | nil => rfl
  | cons b t ih =>
    rw [List.flatMap_cons, List.length_append, ih, List.length_cons]
    simp
    omega

end HexFixed

/-- C4: for every input byte sequence and compile-time width `N`,
`HexStr::<N, P, U>::encode` appends exactly `2N` hex characters (`2N + 2`
with the `0x` prefix): the trailing `min(len, N)` input bytes are
right-aligned into an `N`-byte zero-filled staging window — longer inputs
lose their leading bytes, shorter inputs gain leading zero bytes — and
the window is rendered two hex characters per byte. -/
theorem c4_fixed_hex_window (N : Nat) (P U : Bool) (input buf : List Nat) :
    HexFixed.staging N input
        = List.replicate (N - input.length) 0
            ++ input.drop (input.length - N)
      ∧ HexFixed.hexStrEncode N P U input buf
          = buf ++ (if P then [48, 120] else [])
              ++ (List.replicate (N - input.length) 0
                  ++ input.drop (input.length - N)).flatMap
                  (fun b => [NumStr.digitByte U (b / 16),
                    NumStr.digitByte U (b % 16)])
      ∧ (HexFixed.hexStrEncode N P U input buf).length
          = buf.length + (if P then 2 else 0) + 2 * N := by
  have hs := HexFixed.staging_eq N input
  refine ⟨hs, ?_, ?_⟩
  · rw [HexFixed.hexStrEncode, HexFixed.constHexFormat, hs,
      List.append_assoc]
  · rw [HexFixed.hexStrEncode, HexFixed.constHexFormat, hs]
    rw [List.length_append, List.length_append,
      HexFixed.flatMap_pair_length]
    rw [List.length_append, List.length_replicate, List.length_drop]
    have hp : (if P then ([48, 120] : List Nat) else []).length
        = (if P then 2 else 0) := by
      cases P <;> rfl
    rw [hp]
    omega

/-- C7: the typed Base64 `Decode` and `DecodeToHex` commands append
nothing on malformed input — when the engine reports an error the
destination buffer is returned exactly as it was — and `Decode` likewise
appends nothing when the decoded bytes are not valid UTF-8. -/
theorem c7_base64_decode_silent (dec : List Nat → Option (List Nat))
    (inner buf : List Nat) :
    (dec inner = none → B64.decodeCmd dec inner buf = buf)
      ∧ (∀ data, dec inner = some data → B64.isValidUtf8 data = false →
          B64.decodeCmd dec inner buf = buf)
      ∧ (dec inner = none → B64.decodeToHexCmd dec inner buf = buf) := by
  refine ⟨?_, ?_, ?_⟩
  · intro hnone
    rw [B64.decodeCmd, hnone]
    show (if B64.isValidUtf8 [] then buf ++ [] else buf) = buf
    rw [if_pos (show B64.isValidUtf8 [] = true from rfl), List.append_nil]
  · intro data hsome hbad
    rw [B64.decodeCmd, hsome]
    show (if B64.isValidUtf8 data then buf ++ data else buf) = buf
    rw [hbad]
    rfl
  · intro hnone
    rw [B64.decodeToHexCmd, hnone]
    rfl

/-- C7 witness: a failing engine leaves the buffer `"buf"` unchanged for
both commands, and a successful decode to the invalid-UTF-8 byte `0xFF`
appends nothing. -/
theorem c7_base64_decode_silent_witness :
    B64.decodeCmd (fun _ => none) (asciiBytes "!!!") (asciiBytes "buf")
        = asciiBytes "buf"
      ∧ B64.decodeToHexCmd (fun _ => none) (asciiBytes "!!!")
          (asciiBytes "buf") = asciiBytes "buf"
      ∧ B64.decodeCmd (fun _ => some [255]) (asciiBytes "/w==")
          (asciiBytes "buf") = asciiBytes "buf" :=
  ⟨(c7_base64_decode_silent (fun _ => none) (asciiBytes "!!!")
      (asciiBytes "buf")).1 rfl,
    (c7_base64_decode_silent (fun _ => none) (asciiBytes "!!!")
      (asciiBytes "buf")).2.2 rfl,
    (c7_base64_decode_silent (fun _ => some [255]) (asciiBytes "/w==")
      (asciiBytes "buf")).2.1 [255] rfl (by decide)⟩

namespace Rng

theorem xor_shiftRight_ne_zero (x a : Nat) (hx : x ≠ 0) (ha : 0 < a) :
    x ^^^ (x >>> a) ≠ 0 := by
  intro h
  have heq : x = x >>> a := Nat.xor_eq_zero.mp h
  rw [Nat.shiftRight_eq_div_pow] at heq
  have hlt : x / 2 ^ a < x := by
    refine Nat.div_lt_self (Nat.pos_of_ne_zero hx) ?_
    have : 2 ^ 1 ≤ 2 ^ a := Nat.pow_le_pow_right (by omega) ha
    omega
  omega

theorem xor_shiftRight_lt (x a : Nat) (hx : x < 2 ^ 64) :
    x ^^^ (x >>> a) < 2 ^ 64 := by
  refine Nat.xor_lt_two_pow hx ?_
  rw [Nat.shiftRight_eq_div_pow]
  exact lt_of_le_of_lt (Nat.div_le_self x (2 ^ a)) hx

theorem xor_shiftLeft_ne_zero (x : Nat) (hx : x ≠ 0) (hlt : x < 2 ^ 64) :
    x ^^^ ((x <<< 25) % 2 ^ 64) ≠ 0 := by
  intro h
  have heq : x = (x <<< 25) % 2 ^ 64 := Nat.xor_eq_zero.mp h
  rw [Nat.shiftLeft_eq] at heq
  have hmeq : x % 2 ^ 64 = x * 2 ^ 25 % 2 ^ 64 := by
    rw [Nat.mod_eq_of_lt hlt]
    exact heq
  have hle : x ≤ x * 2 ^ 25 := Nat.le_mul_of_pos_right x (by norm_num)
  have hdvd : 2 ^ 64 ∣ x * 2 ^ 25 - x := (Nat.modEq_iff_dvd' hle).mp hmeq
  have hfac : x * 2 ^ 25 - x = x * (2 ^ 25 - 1) := by
    rw [Nat.mul_sub, Nat.mul_one]
  rw [hfac] at hdvd
  have hcop : Nat.Coprime (2 ^ 64) (2 ^ 25 - 1) := by decide
  have hdx : 2 ^ 64 ∣ x := hcop.dvd_of_dvd_mul_right hdvd
  exact hx (Nat.eq_zero_of_dvd_of_lt hdx hlt)

theorem xorshiftStep_ne_zero (n : Nat) (h0 : n ≠ 0) (hlt : n < 2 ^ 64) :
    xorshiftStep n ≠ 0 ∧ xorshiftStep n < 2 ^ 64 := by
  rw [xorshiftStep]
  have ha0 : n ^^^ (n >>> 12) ≠ 0 := xor_shiftRight_ne_zero n 12 h0 (by omega)
  have halt : n ^^^ (n >>> 12) < 2 ^ 64 := xor_shiftRight_lt n 12 hlt
  have hb0 : (n ^^^ (n >>> 12)) ^^^
      (((n ^^^ (n >>> 12)) <<< 25) % 2 ^ 64) ≠ 0 :=
    xor_shiftLeft_ne_zero _ ha0 halt
  have hblt : (n ^^^ (n >>> 12)) ^^^
      (((n ^^^ (n >>> 12)) <<< 25) % 2 ^ 64) < 2 ^ 64 :=
    Nat.xor_lt_two_pow halt (Nat.mod_lt _ (by norm_num))
  exact ⟨xor_shiftRight_ne_zero _ 27 hb0 (by omega),
    xor_shiftRight_lt _ 27 hblt⟩

end Rng

/-- C9: one `fast_random` draw stores the xorshift*-transformed state
(`n ^= n >> 12; n ^= n << 25; n ^= n >> 27` on 64-bit words) and returns
that new state times `0x2545F4914F6CDD1D` modulo `2^64`; starting from
any non-zero 64-bit seed, the state stays non-zero (and 64-bit) after
any number of draws. -/
theorem c9_fast_random_nonzero (n : Nat) (h0 : n ≠ 0) (hlt : n < 2 ^ 64) :
    (Rng.fastRandomStep n).1 = Rng.xorshiftStep n
      ∧ (Rng.fastRandomStep n).2
          = Rng.xorshiftStep n * 0x2545F4914F6CDD1D % 2 ^ 64
      ∧ ∀ k, Rng.xorshiftStep^[k] n ≠ 0 ∧ Rng.xorshiftStep^[k] n < 2 ^ 64 := by
  refine ⟨rfl, rfl, ?_⟩
  intro k
  induction k with
  | zero => exact ⟨h0, hlt⟩
  | succ m ih =>
    rw [Function.iterate_succ_apply']
    exact Rng.xorshiftStep_ne_zero _ ih.1 ih.2

/-- C9 witness: the statement instantiated at seed 1. -/
theorem c9_fast_random_nonzero_witness :
    ((1:Nat) ≠ 0 ∧ (1:Nat) < 2 ^ 64)
      ∧ ((Rng.fastRandomStep 1).1 = Rng.xorshiftStep 1
        ∧ (Rng.fastRandomStep 1).2
            = Rng.xorshiftStep 1 * 0x2545F4914F6CDD1D % 2 ^ 64
        ∧ ∀ k, Rng.xorshiftStep^[k] 1 ≠ 0
            ∧ Rng.xorshiftStep^[k] 1 < 2 ^ 64) :=
  ⟨⟨by decide, by decide⟩, c9_fast_random_nonzero 1 (by decide) (by decide)⟩
